import Mathlib

/-!
Verification development for the ASCII-Bot rendering engine.

The Rust sources embedded here:
 - src/src/parse_hex_color.rs : hex color string parsing (byte-level model;
   a Rust string is modelled as its list of bytes, each a Nat < 256; the
   theorems about it restrict inputs to ASCII, where byte-wise lowercasing
   coincides with Rust str::to_lowercase and byte slicing never panics).
 - src/src/image_to_ascii.rs :
     AsciiRenderer::new (max_width_chars), calculate_ascii_dimensions,
     boost_brightness, count_visible_chars, parse_colored_line,
     parse_ansi_rgb, and the width computation of render_to_image.
   Lines are modelled as lists of Chars (Rust iterates chars()).
   f32 arithmetic is modelled by exact rational arithmetic with the IEEE
   special cases (division by zero giving inf/NaN and the saturating
   float-to-integer casts) made explicit where they are reachable.
-/

namespace AsciiBot

/-- image::Rgba<u8>: one 8-bit RGBA color value, channels as Nats. -/
structure Rgba where
  r : Nat
  g : Nat
  b : Nat
  a : Nat
deriving DecidableEq, Repr

/-- The initial color of parse_colored_line: Rgba([255, 255, 255, 255]). -/
def defaultColor : Rgba := ⟨255, 255, 255, 255⟩

/-! ## parse_hex_color.rs -/

/-- Byte-wise ASCII lowercasing; agrees with str::to_lowercase on ASCII. -/
def toLowerByte (b : Nat) : Nat := if 65 ≤ b ∧ b ≤ 90 then b + 32 else b

/-- strip_prefix('#') orElse strip_prefix("0x") on the lowercased bytes
(35 is the '#' byte, 48 and 120 the '0' and 'x' bytes). -/
def stripHexMark (l : List Nat) : List Nat :=
  match l with
  | [] => []
  | a :: rest =>
    if a = 35 then rest
    else
      match rest with
      | [] => [a]
      | b :: rest2 => if a = 48 ∧ b = 120 then rest2 else a :: b :: rest2

/-- Value of one hex digit byte (0-9, a-f, A-F), as u8::from_str_radix
accepts; the lowercased inputs only exercise 0-9 and a-f. -/
def hexVal? (b : Nat) : Option Nat :=
  if 48 ≤ b ∧ b ≤ 57 then some (b - 48)
  else if 97 ≤ b ∧ b ≤ 102 then some (b - 87)
  else if 65 ≤ b ∧ b ≤ 70 then some (b - 55)
  else none

/-- Accumulate hex digits left to right; none on the first non-digit. -/
def hexDigitsAux (acc : Nat) : List Nat → Option Nat
  | [] => some acc
  | b :: rest =>
    match hexVal? b with
    | some d => hexDigitsAux (acc * 16 + d) rest
    | none => none

/-- u8::from_str_radix also accepts one leading plus sign (byte 43). -/
def stripPlusB (s : List Nat) : List Nat :=
  match s with
  | [] => []
  | b :: rest => if b = 43 then rest else b :: rest

/-- u8::from_str_radix(s, 16): optional plus sign, then at least one hex
digit; the value must fit in u8. -/
def fromStrRadix16U8 (s : List Nat) : Option Nat :=
  match stripPlusB s with
  | [] => none
  | b :: rest =>
    match hexDigitsAux 0 (b :: rest) with
    | some v => if v ≤ 255 then some v else none
    | none => none

/-- The two error message shapes of parse_hex_color, both carrying the
lowercased, prefix-stripped string; the spec groups both as InvalidColor. -/
inductive HexError where
  | invalidColor (s : List Nat)
  | invalidLength (s : List Nat)
deriving DecidableEq, Repr

/-- Body of parse_hex_color after normalization: dispatch on the byte
length of the stripped string, slicing as the Rust ranges do. -/
def parseHexDispatch (hex : List Nat) : Except HexError Rgba :=
  if hex.length = 3 then
    match fromStrRadix16U8 (hex.take 1), fromStrRadix16U8 ((hex.drop 1).take 1),
          fromStrRadix16U8 ((hex.drop 2).take 1) with
    | some r, some g, some b => .ok ⟨r * 17, g * 17, b * 17, 255⟩
    | _, _, _ => .error (.invalidColor hex)
  else if hex.length = 4 then
    match fromStrRadix16U8 (hex.take 1), fromStrRadix16U8 ((hex.drop 1).take 1),
          fromStrRadix16U8 ((hex.drop 2).take 1), fromStrRadix16U8 ((hex.drop 3).take 1) with
    | some r, some g, some b, some a => .ok ⟨r * 17, g * 17, b * 17, a * 17⟩
    | _, _, _, _ => .error (.invalidColor hex)
  else if hex.length = 6 then
    match fromStrRadix16U8 (hex.take 2), fromStrRadix16U8 ((hex.drop 2).take 2),
          fromStrRadix16U8 ((hex.drop 4).take 2) with
    | some r, some g, some b => .ok ⟨r, g, b, 255⟩
    | _, _, _ => .error (.invalidColor hex)
  else if hex.length = 8 then
    match fromStrRadix16U8 (hex.take 2), fromStrRadix16U8 ((hex.drop 2).take 2),
          fromStrRadix16U8 ((hex.drop 4).take 2), fromStrRadix16U8 ((hex.drop 6).take 2) with
    | some r, some g, some b, some a => .ok ⟨r, g, b, a⟩
    | _, _, _, _ => .error (.invalidColor hex)
  else .error (.invalidLength hex)

/-- parse_hex_color: lowercase, strip an optional '#' or "0x", dispatch. -/
def parse_hex_color (input : List Nat) : Except HexError Rgba :=
  parseHexDispatch (stripHexMark (input.map toLowerByte))

/-! ## AsciiRenderer::new and calculate_ascii_dimensions -/

/-- AsciiRenderer::new stores max_width_chars: max_width.min(500). -/
def max_width_chars (max_width : Nat) : Nat := min max_width 500

/-- u32::MAX, the value an f32 infinity saturates to when cast to u32. -/
def u32Max : Nat := 4294967295

/-- calculate_ascii_dimensions(img_width, img_height) with the stored
max_width_chars. The f32 expression
  (tw as f32 / ((w as f32 / h as f32) * 2.0)) as u32
is modelled exactly: for h = 0 the division yields inf (w > 0) or NaN
(w = 0) and the u32 cast gives 0 in both cases; for w = 0 with h > 0 it
yields inf (tw > 0, cast saturates to u32::MAX) or NaN (tw = 0, cast 0);
otherwise by the rational value truncated toward zero. -/
def calculate_ascii_dimensions (mwc w h : Nat) : Nat × Nat :=
  let tw := mwc
  let th : Nat :=
    if h = 0 then 0
    else if w = 0 then (if tw = 0 then 0 else u32Max)
    else tw * h / (2 * w)
  (tw, max th 1)

/-! ## boost_brightness -/

/-- Rust (x as f32) as u8 saturating cast for nonnegative-or-negative
rationals: negative values clamp to 0, values above 255 clamp to 255,
otherwise truncate. -/
def f32ToU8 (x : ℚ) : Nat :=
  if x < 0 then 0 else if 255 < x then 255 else Int.toNat ⌊x⌋

/-- boost_brightness: each of r, g, b becomes
(channel as f32 * brightness_boost).min(255.0) as u8; alpha is copied. -/
def boost_brightness (boost : ℚ) (c : Rgba) : Rgba :=
  ⟨f32ToU8 (min ((c.r : ℚ) * boost) 255),
   f32ToU8 (min ((c.g : ℚ) * boost) 255),
   f32ToU8 (min ((c.b : ℚ) * boost) 255),
   c.a⟩

/-! ## The ANSI stream parser of render_to_image

count_visible_chars and parse_colored_line both walk one chars() iterator
with nested inner loops (lookahead for '[' after ESC, then scan to 'm').
Each call of chars.next() consumes exactly one character, so both are the
same one-character-per-step machine with three modes:
 - normal : the outer while-let loop;
 - sawEsc : just consumed ESC, about to test chars.next() == Some('[')
   (the tested character is consumed either way);
 - inEscape : inside the inner read-until-'m' loop, with the code buffer
   accumulated so far (count_visible_chars keeps no buffer).
-/

/-- The ESC control character, code point 27. -/
def escChar : Char := Char.ofNat 27

/-- Decimal digit value of a character, as str::parse::<u8> consumes. -/
def decVal? (c : Char) : Option Nat :=
  if 48 ≤ c.toNat ∧ c.toNat ≤ 57 then some (c.toNat - 48) else none

/-- Accumulate decimal digits left to right; none on a non-digit. -/
def decDigitsAux (acc : Nat) : List Char → Option Nat
  | [] => some acc
  | c :: rest =>
    match decVal? c with
    | some d => decDigitsAux (acc * 10 + d) rest
    | none => none

/-- str::parse::<u8> also accepts one leading plus sign. -/
def stripPlusC (s : List Char) : List Char :=
  match s with
  | [] => []
  | c :: rest => if c = '+' then rest else c :: rest

/-- str::parse::<u8>: optional plus sign, at least one decimal digit,
value at most 255. -/
def parseU8 (s : List Char) : Option Nat :=
  match stripPlusC s with
  | [] => none
  | c :: rest =>
    match decDigitsAux 0 (c :: rest) with
    | some v => if v ≤ 255 then some v else none
    | none => none

/-- str::split(';'): the code buffer cut at every ';', keeping empties. -/
def splitSemi : List Char → List (List Char)
  | [] => [[]]
  | c :: rest =>
    if c = ';' then [] :: splitSemi rest
    else
      match splitSemi rest with
      | p :: ps => (c :: p) :: ps
      | [] => [[c]]

/-- Code interpretation of parse_ansi_rgb over the ';'-split parts:
parts.len() >= 5 with parts[0] = "38" or "48" and parts[1] = "2" parses
parts[2..5] as u8 (a failed parse returns None for the whole code);
exactly one part equal to "0" resets to white; anything else is None. -/
def interpretParts : List (List Char) → Option Rgba
  | [p] => if p = ['0'] then some ⟨255, 255, 255, 255⟩ else none
  | p0 :: p1 :: p2 :: p3 :: p4 :: _ =>
    if p0 = ['3', '8'] ∧ p1 = ['2'] then
      match parseU8 p2, parseU8 p3, parseU8 p4 with
      | some r, some g, some b => some ⟨r, g, b, 255⟩
      | _, _, _ => none
    else if p0 = ['4', '8'] ∧ p1 = ['2'] then
      match parseU8 p2, parseU8 p3, parseU8 p4 with
      | some r, some g, some b => some ⟨r, g, b, 255⟩
      | _, _, _ => none
    else none
  | _ => none

/-- parse_ansi_rgb(code). -/
def parse_ansi_rgb (code : List Char) : Option Rgba :=
  interpretParts (splitSemi code)

/-- On reading the terminating 'm', parse_colored_line overwrites
current_color only when parse_ansi_rgb returns Some. -/
def applyCode (cur : Rgba) (buf : List Char) : Rgba :=
  match parse_ansi_rgb buf with
  | some c => c
  | none => cur

/-- Parser mode, see the section comment. -/
inductive PMode where
  | normal
  | sawEsc
  | inEscape (buf : List Char)
deriving DecidableEq, Repr

/-- parse_colored_line as the one-character-per-step machine. In normal
mode a non-ESC character is pushed with the current color; ESC enters
sawEsc. In sawEsc, '[' enters inEscape with an empty buffer and any other
character (already consumed by chars.next()) is discarded back to normal.
In inEscape, 'm' interprets the buffer and returns to normal, any other
character is appended to the buffer. Input may end in any mode. -/
def runParse (m : PMode) (cur : Rgba) : List Char → List (Char × Rgba)
  | [] => []
  | c :: rest =>
    match m with
    | .normal =>
      if c = escChar then runParse .sawEsc cur rest
      else (c, cur) :: runParse .normal cur rest
    | .sawEsc =>
      if c = '[' then runParse (.inEscape []) cur rest
      else runParse .normal cur rest
    | .inEscape buf =>
      if c = 'm' then runParse .normal (applyCode cur buf) rest
      else runParse (.inEscape (buf ++ [c])) cur rest

/-- parse_colored_line(line): current_color starts as white. -/
def parse_colored_line (l : List Char) : List (Char × Rgba) :=
  runParse .normal defaultColor l

/-- Counter mode: same machine as PMode but without a code buffer. -/
inductive CMode where
  | normal
  | sawEsc
  | inEsc
deriving DecidableEq, Repr

/-- count_visible_chars as the same one-character-per-step machine,
incrementing on each character emitted in normal mode. -/
def runCount (m : CMode) : List Char → Nat
  | [] => 0
  | c :: rest =>
    match m with
    | .normal =>
      if c = escChar then runCount .sawEsc rest
      else 1 + runCount .normal rest
    | .sawEsc =>
      if c = '[' then runCount .inEsc rest
      else runCount .normal rest
    | .inEsc =>
      if c = 'm' then runCount .normal rest
      else runCount .inEsc rest

/-- count_visible_chars(line). -/
def count_visible_chars (l : List Char) : Nat := runCount .normal l

/-- The buffer-erasing correspondence between the two machines. -/
def projMode : PMode → CMode
  | .normal => .normal
  | .sawEsc => .sawEsc
  | .inEscape _ => .inEsc

/-- render_to_image parses every line afresh with parse_colored_line. -/
def parseLines (ls : List (List Char)) : List (List (Char × Rgba)) :=
  ls.map parse_colored_line

/-- AsciiRenderer char_width. -/
def char_width : Nat := 9

/-- lines.iter().map(count_visible_chars).max().unwrap_or(0). -/
def maxVisible (ls : List (List Char)) : Nat :=
  (ls.map count_visible_chars).foldr max 0

/-- render_to_image buffer width in pixels: width * char_width. -/
def bufferWidthPx (ls : List (List Char)) : Nat :=
  maxVisible ls * char_width

/-! ## Helper lemmas -/

theorem floor_255 : ⌊(255 : ℚ)⌋ = 255 := by
  rw [show (255 : ℚ) = ((255 : ℤ) : ℚ) by norm_num, Int.floor_intCast]

theorem f32ToU8_min_255 (x : ℚ) : f32ToU8 (min x 255) = min 255 (Int.toNat ⌊x⌋) := by
  by_cases h1 : x < 0
  · rw [min_eq_left (by linarith : x ≤ 255)]
    rw [f32ToU8, if_pos h1]
    have hf : ⌊x⌋ < 0 := by
      have := Int.floor_lt.mpr (show x < ((0 : ℤ) : ℚ) by push_cast; linarith)
      simpa using this
    omega
  · by_cases h2 : 255 < x
    · rw [min_eq_right (le_of_lt h2)]
      rw [f32ToU8, if_neg (by norm_num), if_neg (by norm_num), floor_255]
      have hge : (255 : ℤ) ≤ ⌊x⌋ := Int.le_floor.mpr (by push_cast; linarith)
      omega
    · rw [min_eq_left (not_lt.mp h2)]
      rw [f32ToU8, if_neg h1, if_neg h2]
      have hle : ⌊x⌋ ≤ 255 := by
        calc ⌊x⌋ ≤ ⌊(255 : ℚ)⌋ := Int.floor_le_floor (not_lt.mp h2)
        _ = 255 := floor_255
      omega

/-! ### Stepping lemmas for the parse machine -/

theorem runParse_visible (cur : Rgba) (c : Char) (rest : List Char) (hc : c ≠ escChar) :
    runParse .normal cur (c :: rest) = (c, cur) :: runParse .normal cur rest := by
  simp [runParse, hc]

theorem runParse_inEscape_scan (cur : Rgba) :
    ∀ (code : List Char), 'm' ∉ code → ∀ (buf cs : List Char),
      runParse (.inEscape buf) cur (code ++ 'm' :: cs) =
        runParse .normal (applyCode cur (buf ++ code)) cs := by
  intro code
  induction code with
  | nil => intro _ buf cs; simp [runParse]
  | cons c code ih =>
    intro hm buf cs
    have hc : c ≠ 'm' := fun h => hm (by simp [h])
    have hm' : 'm' ∉ code := fun h => hm (List.mem_cons_of_mem _ h)
    simp only [List.cons_append, runParse, if_neg hc]
    rw [show code.append ('m' :: cs) = code ++ 'm' :: cs from rfl,
        ih hm' (buf ++ [c]) cs, List.append_assoc]
    rfl

theorem runParse_escape_seq (cur : Rgba) (code cs : List Char) (hm : 'm' ∉ code) :
    runParse .normal cur (escChar :: '[' :: (code ++ 'm' :: cs)) =
      runParse .normal (applyCode cur code) cs := by
  have h1 : runParse .normal cur (escChar :: '[' :: (code ++ 'm' :: cs)) =
      runParse (.inEscape []) cur (code ++ 'm' :: cs) := by
    simp [runParse]
  rw [h1, runParse_inEscape_scan cur code hm [] cs]
  rfl

/-! ### str::parse::<u8> side conditions -/

theorem decDigitsAux_mem :
    ∀ (t : List Char) (a v : Nat), decDigitsAux a t = some v →
      ∀ x ∈ t, (decVal? x).isSome := by
  intro t
  induction t with
  | nil => intro a v _ x hx; cases hx
  | cons c r ih =>
    intro a v h x hx
    rcases hc : decVal? c with _ | d
    · simp only [decDigitsAux, hc] at h
      exact Option.noConfusion h
    · simp only [decDigitsAux, hc] at h
      rcases List.mem_cons.mp hx with rfl | hx'
      · simp [hc]
      · exact ih _ _ h x hx'

theorem mem_stripPlusC (s : List Char) (x : Char) (hx : x ∈ s) :
    x = '+' ∨ x ∈ stripPlusC s := by
  cases s with
  | nil => cases hx
  | cons c r =>
    by_cases hc : c = '+'
    · subst hc
      rcases List.mem_cons.mp hx with rfl | hx'
      · exact Or.inl rfl
      · right; simpa [stripPlusC] using hx'
    · right; simpa [stripPlusC, hc] using hx

theorem parseU8_digits (s : List Char) (v : Nat) (h : parseU8 s = some v) :
    ∀ x ∈ stripPlusC s, (decVal? x).isSome := by
  unfold parseU8 at h
  split at h
  · intro x hx
    next heq => rw [heq] at hx; cases hx
  · next c r heq =>
    intro x hx
    rw [heq] at hx
    split at h
    · next w hd =>
      exact decDigitsAux_mem _ _ _ hd x hx
    · exact Option.noConfusion h

theorem parseU8_mem (s : List Char) (v : Nat) (h : parseU8 s = some v) :
    ∀ x ∈ s, x = '+' ∨ (decVal? x).isSome := by
  intro x hx
  rcases mem_stripPlusC s x hx with h1 | h1
  · exact Or.inl h1
  · exact Or.inr (parseU8_digits s v h x h1)

theorem decVal?_isSome_ranges (x : Char) (h : (decVal? x).isSome) :
    x ≠ 'm' ∧ x ≠ ';' := by
  constructor <;> rintro rfl <;> exact absurd h (by decide)

theorem parseU8_no_m (s : List Char) (v : Nat) (h : parseU8 s = some v) :
    'm' ∉ s ∧ ';' ∉ s := by
  constructor <;> intro hmem
  · rcases parseU8_mem s v h _ hmem with h1 | h1
    · cases h1
    · exact (decVal?_isSome_ranges _ h1).1 rfl
  · rcases parseU8_mem s v h _ hmem with h1 | h1
    · cases h1
    · exact (decVal?_isSome_ranges _ h1).2 rfl

/-! ### str::split(';') lemmas -/

theorem splitSemi_no_semi : ∀ (a : List Char), ';' ∉ a → splitSemi a = [a] := by
  intro a
  induction a with
  | nil => intro _; rfl
  | cons c r ih =>
    intro h
    have hc : c ≠ ';' := fun hh => h (by simp [hh])
    have hr : ';' ∉ r := fun hh => h (List.mem_cons_of_mem _ hh)
    simp [splitSemi, hc, ih hr]

theorem splitSemi_append :
    ∀ (a rest : List Char), ';' ∉ a →
      splitSemi (a ++ ';' :: rest) = a :: splitSemi rest := by
  intro a
  induction a with
  | nil => intro rest _; simp [splitSemi]
  | cons c r ih =>
    intro rest h
    have hc : c ≠ ';' := fun hh => h (by simp [hh])
    have hr : ';' ∉ r := fun hh => h (List.mem_cons_of_mem _ hh)
    simp [splitSemi, hc, ih rest hr]

/-- The textual escape code 48;2;sR;sG;sB built from three number strings. -/
def mkCode48 (sR sG sB : List Char) : List Char :=
  ['4', '8'] ++ ';' :: (['2'] ++ ';' :: (sR ++ ';' :: (sG ++ ';' :: sB)))

theorem parse_ansi_rgb_48 (sR sG sB : List Char) (r g b : Nat)
    (hR : parseU8 sR = some r) (hG : parseU8 sG = some g) (hB : parseU8 sB = some b) :
    parse_ansi_rgb (mkCode48 sR sG sB) = some ⟨r, g, b, 255⟩ := by
  have hsR : ';' ∉ sR := (parseU8_no_m _ _ hR).2
  have hsG : ';' ∉ sG := (parseU8_no_m _ _ hG).2
  have hsB : ';' ∉ sB := (parseU8_no_m _ _ hB).2
  have hsplit : splitSemi (mkCode48 sR sG sB) = [['4', '8'], ['2'], sR, sG, sB] := by
    unfold mkCode48
    rw [splitSemi_append _ _ (by decide), splitSemi_append _ _ (by decide),
        splitSemi_append _ _ hsR, splitSemi_append _ _ hsG, splitSemi_no_semi _ hsB]
  unfold parse_ansi_rgb
  rw [hsplit]
  simp [interpretParts, hR, hG, hB]

theorem mkCode48_no_m (sR sG sB : List Char) (r g b : Nat)
    (hR : parseU8 sR = some r) (hG : parseU8 sG = some g) (hB : parseU8 sB = some b) :
    'm' ∉ mkCode48 sR sG sB := by
  have hR' : 'm' ∉ sR := (parseU8_no_m _ _ hR).1
  have hG' : 'm' ∉ sG := (parseU8_no_m _ _ hG).1
  have hB' : 'm' ∉ sB := (parseU8_no_m _ _ hB).1
  intro hmem
  unfold mkCode48 at hmem
  rw [List.mem_append] at hmem
  rcases hmem with h | h
  · exact absurd h (by decide)
  · rw [List.mem_cons] at h
    rcases h with h | h
    · exact absurd h (by decide)
    · rw [List.mem_append] at h
      rcases h with h | h
      · exact absurd h (by decide)
      · rw [List.mem_cons] at h
        rcases h with h | h
        · exact absurd h (by decide)
        · rw [List.mem_append] at h
          rcases h with h | h
          · exact hR' h
          · rw [List.mem_cons] at h
            rcases h with h | h
            · exact absurd h (by decide)
            · rw [List.mem_append] at h
              rcases h with h | h
              · exact hG' h
              · rw [List.mem_cons] at h
                rcases h with h | h
                · exact absurd h (by decide)
                · exact hB' h

/-! ## C4 / C6 support: nothing extra needed. -/

/-! ## Claim theorems -/

/--
C4 counterexample. The claim says calculate_dimensions fails with an
InvalidImageDimensions error when source_height = 0; the code has no
error path at all: with height 0 the f32 division yields infinity, the
u32 cast of max_width / inf gives 0, and the .max(1) clamp returns row
count 1. Concretely, width 100, height 0, max size 150 returns (150, 1).
-/
theorem calcDims_height_zero_counterexample :
    calculate_ascii_dimensions (max_width_chars 150) 100 0 = (150, 1) := rfl

/--
C4 (amended): for source_height = 0, calculate_ascii_dimensions does not
fail; it returns (max_width_chars, 1) for every width and every stored
maximum width.
-/
theorem calcDims_height_zero_total (mwc w : Nat) :
    calculate_ascii_dimensions mwc w 0 = (mwc, 1) := by
  simp [calculate_ascii_dimensions]

/--
C6 counterexample. The claim quantifies over every max_columns and
asserts columns ≥ 1; with max_columns = 0 the code stores
max_width_chars = min 0 500 = 0 and returns columns = 0.
-/
theorem calcDims_zero_columns_counterexample :
    (calculate_ascii_dimensions (max_width_chars 0) 10 10).1 = 0 := rfl

/--
C6 (amended): for max_columns ≥ 1 the returned columns is ≥ 1, the
returned rows is always ≥ 1 (never 0) for every width/height including
degenerate ones, and a square source (w = h ≠ 0) with max_columns = 100
yields exactly (100, 50).
-/
theorem calcDims_bounds (mw w h n : Nat) (hmw : 1 ≤ mw) (hn : n ≠ 0) :
    1 ≤ (calculate_ascii_dimensions (max_width_chars mw) w h).1 ∧
    (∀ mwc' w' h', 1 ≤ (calculate_ascii_dimensions mwc' w' h').2) ∧
    calculate_ascii_dimensions (max_width_chars 100) n n = (100, 50) := by
  refine ⟨?_, ?_, ?_⟩
  · simp only [calculate_ascii_dimensions, max_width_chars]
    exact le_min hmw (by norm_num)
  · intro mwc' w' h'
    simp only [calculate_ascii_dimensions]
    exact le_max_right _ 1
  · simp only [calculate_ascii_dimensions, max_width_chars]
    have h2n : 0 < 2 * n := by omega
    have : 100 * n / (2 * n) = 50 := by
      rw [show 100 * n = 50 * (2 * n) by ring, Nat.mul_div_cancel 50 h2n]
    simp [hn, this]

/-- Witness for calcDims_bounds at mw = 7, w = 3, h = 4, n = 2, with the
universal rows conjunct exercised at the boundary max_columns = 0. -/
theorem calcDims_bounds_witness :
    (1 ≤ 7 ∧ (2 : Nat) ≠ 0) ∧
    1 ≤ (calculate_ascii_dimensions (max_width_chars 7) 3 4).1 ∧
    1 ≤ (calculate_ascii_dimensions (max_width_chars 0) 10 10).2 ∧
    calculate_ascii_dimensions (max_width_chars 100) 2 2 = (100, 50) := by
  have h := calcDims_bounds 7 3 4 2 (by norm_num) (by norm_num)
  exact ⟨⟨by norm_num, by norm_num⟩, h.1, h.2.1 (max_width_chars 0) 10 10, h.2.2⟩

/--
C9: boost_brightness multiplies each of the r, g, b channels by the boost
factor, clamps at 255 (truncating the f32 product toward zero as the u8
cast does), and passes the alpha channel through unchanged; in
particular channel 200 with boost 2.0 yields 255 and alpha is preserved.
-/
theorem boost_brightness_clamped (boost : ℚ) (c : Rgba) :
    boost_brightness boost c =
      ⟨min 255 (Int.toNat ⌊(c.r : ℚ) * boost⌋),
       min 255 (Int.toNat ⌊(c.g : ℚ) * boost⌋),
       min 255 (Int.toNat ⌊(c.b : ℚ) * boost⌋),
       c.a⟩ ∧
    boost_brightness 2 ⟨200, 100, 0, 7⟩ = ⟨255, 200, 0, 7⟩ := by
  constructor
  · simp only [boost_brightness, f32ToU8_min_255]
  · simp only [boost_brightness, f32ToU8_min_255]
    norm_num
    rfl

/--
C5 counterexample. The claim says that after an ESC not followed by '[',
only the ESC is discarded and the next character is ordinary input; in
the code chars.next() consumes the lookahead character unconditionally,
so both ESC and the following 'X' are discarded and only 'Y' is emitted.
-/
theorem esc_without_bracket_counterexample :
    parse_colored_line [escChar, 'X', 'Y'] = [('Y', defaultColor)] ∧
    parse_colored_line [escChar, 'X', 'Y'] ≠
      [('X', defaultColor), ('Y', defaultColor)] := by
  decide

/--
C5 (amended): when ESC is not immediately followed by '[', the ESC and
the immediately following character are both consumed and discarded with
no cell emitted for either, in both parse_colored_line and
count_visible_chars; an ESC that ends the input is discarded alone.
-/
theorem esc_without_bracket (cur : Rgba) (c : Char) (rest : List Char) (hc : c ≠ '[') :
    runParse .normal cur (escChar :: c :: rest) = runParse .normal cur rest ∧
    runCount .normal (escChar :: c :: rest) = runCount .normal rest ∧
    runParse .normal cur [escChar] = [] := by
  refine ⟨?_, ?_, ?_⟩
  · simp [runParse, hc]
  · simp [runCount, hc]
  · simp [runParse]

/-- Witness for esc_without_bracket at cur = white, c = 'X', rest = ['Y']. -/
theorem esc_without_bracket_witness :
    (('X' : Char) ≠ '[') ∧
    runParse .normal defaultColor [escChar, 'X', 'Y'] =
      runParse .normal defaultColor ['Y'] := by
  have h := esc_without_bracket defaultColor 'X' ['Y'] (by decide)
  exact ⟨by decide, h.1⟩

/--
C2 counterexample. The claim says color state persists across line
boundaries within one parse of a multi-line text; render_to_image calls
parse_colored_line per line and each call restarts current_color at
white, so after a line that set color (1,2,3) the next line's 'B' is
emitted white, not (1,2,3).
-/
theorem color_per_line_counterexample :
    parseLines [escChar :: '[' :: ['3', '8', ';', '2', ';', '1', ';', '2', ';', '3', 'm', 'A'],
                ['B']] =
      [[('A', ⟨1, 2, 3, 255⟩)], [('B', ⟨255, 255, 255, 255⟩)]] ∧
    (⟨255, 255, 255, 255⟩ : Rgba) ≠ ⟨1, 2, 3, 255⟩ := by
  decide

/--
C2 (amended): color state set by an escape code persists across the
following characters within one line, but render_to_image parses every
line with a fresh parse_colored_line call whose current color restarts
at opaque white, so color state does not carry across line boundaries:
a visible character at the start of a later line with no intervening
escape code is emitted white regardless of earlier lines.
-/
theorem color_per_line (ls : List (List Char)) (i : Nat) (cur : Rgba)
    (c1 c2 : Char) (rest : List Char) (h1 : c1 ≠ escChar) (h2 : c2 ≠ escChar) :
    runParse .normal cur (c1 :: c2 :: rest) =
      (c1, cur) :: (c2, cur) :: runParse .normal cur rest ∧
    (parseLines ls)[i]? = (ls[i]?).map parse_colored_line ∧
    parseLines [escChar :: '[' :: ['3', '8', ';', '2', ';', '1', ';', '2', ';', '3', 'm', 'A'],
                ['B']] =
      [[('A', ⟨1, 2, 3, 255⟩)], [('B', defaultColor)]] := by
  refine ⟨?_, ?_, by decide⟩
  · simp [runParse, h1, h2]
  · simp [parseLines]

/-- Witness for color_per_line at ls = [['A']], i = 0, two plain chars. -/
theorem color_per_line_witness :
    (('A' : Char) ≠ escChar ∧ ('B' : Char) ≠ escChar) ∧
    runParse .normal defaultColor ['A', 'B'] =
      [('A', defaultColor), ('B', defaultColor)] := by
  have h := color_per_line [['A']] 0 defaultColor 'A' 'B' [] (by decide) (by decide)
  exact ⟨⟨by decide, by decide⟩, h.1⟩

/--
C8 counterexample. The claim allows only a well-formed 38;2;R;G;B,
48;2;R;G;B or lone 0 to change state; the code accepts any code whose
';'-split has at least five fields with the right first two, so the
six-field code 38;2;1;2;3;4 (not of the three listed forms) still sets
the color to (1,2,3,255).
-/
theorem unknown_codes_counterexample :
    parse_colored_line
        (escChar :: '[' :: ['3', '8', ';', '2', ';', '1', ';', '2', ';', '3', ';', '4', 'm', 'X']) =
      [('X', ⟨1, 2, 3, 255⟩)] ∧
    (⟨1, 2, 3, 255⟩ : Rgba) ≠ defaultColor := by
  decide

/--
C8 (amended): any escape code on which parse_ansi_rgb returns None —
in particular every code that does not have at least five ';'-fields
starting 38;2 or 48;2 with the next three parseable as u8, and is not
exactly the single field 0 — leaves the current color unchanged and
raises no error; codes with such a prefix but extra trailing fields do
change the color. In particular "\x1b[99;1mX" parses to exactly one
cell ('X', unchanged white).
-/
theorem unknown_codes_inert (cur : Rgba) (code cs : List Char)
    (hm : 'm' ∉ code) (hnone : parse_ansi_rgb code = none) :
    runParse .normal cur (escChar :: '[' :: (code ++ 'm' :: cs)) =
      runParse .normal cur cs ∧
    parse_ansi_rgb ['9', '9', ';', '1'] = none ∧
    parse_colored_line (escChar :: '[' :: ['9', '9', ';', '1', 'm', 'X']) =
      [('X', defaultColor)] := by
  refine ⟨?_, by decide, by decide⟩
  rw [runParse_escape_seq cur code cs hm]
  simp [applyCode, hnone]

/-- Witness for unknown_codes_inert at code = ['z'], cs = ['Q']. -/
theorem unknown_codes_inert_witness :
    (('m' ∉ (['z'] : List Char)) ∧ parse_ansi_rgb ['z'] = none) ∧
    runParse .normal defaultColor (escChar :: '[' :: (['z'] ++ 'm' :: ['Q'])) =
      runParse .normal defaultColor ['Q'] := by
  have h := unknown_codes_inert defaultColor ['z'] ['Q'] (by decide) (by decide)
  exact ⟨⟨by decide, by decide⟩, h.1⟩

/--
C1 counterexample. The claim says a 48;2;R;G;B code sets a separate
background and leaves the foreground unchanged; in the code
parse_ansi_rgb returns the same single color for 48-codes as for
38-codes and parse_colored_line stores it in the one current_color used
as the glyph (foreground) color, so after "\x1b[48;2;10;20;30m" the
cell for 'X' carries color (10,20,30,255), not the unchanged white.
-/
theorem background_code_counterexample :
    parse_colored_line
        (escChar :: '[' :: ['4', '8', ';', '2', ';', '1', '0', ';', '2', '0', ';', '3', '0', 'm', 'X']) =
      [('X', ⟨10, 20, 30, 255⟩)] ∧
    (⟨10, 20, 30, 255⟩ : Rgba) ≠ defaultColor := by
  decide

/--
C1 (amended): interpreting 48;2;R;G;B sets the parser's single current
color to Color(R,G,B,255); the parser keeps no separate background and
cells have no background component, so this same color is what the next
visible character is emitted with (it is used as the glyph/foreground
color when drawing).
-/
theorem background_sets_current_color (cur : Rgba) (r g b : Nat)
    (sR sG sB : List Char) (c : Char) (cs : List Char)
    (hR : parseU8 sR = some r) (hG : parseU8 sG = some g) (hB : parseU8 sB = some b)
    (hc : c ≠ escChar) :
    parse_ansi_rgb (mkCode48 sR sG sB) = some ⟨r, g, b, 255⟩ ∧
    runParse .normal cur (escChar :: '[' :: (mkCode48 sR sG sB ++ 'm' :: c :: cs)) =
      (c, ⟨r, g, b, 255⟩) :: runParse .normal ⟨r, g, b, 255⟩ cs := by
  have hansi := parse_ansi_rgb_48 sR sG sB r g b hR hG hB
  refine ⟨hansi, ?_⟩
  rw [runParse_escape_seq cur _ _ (mkCode48_no_m sR sG sB r g b hR hG hB)]
  rw [show applyCode cur (mkCode48 sR sG sB) = ⟨r, g, b, 255⟩ by
    simp [applyCode, hansi]]
  exact runParse_visible _ _ _ hc

/-- Witness for background_sets_current_color at 48;2;10;20;30 then 'X'. -/
theorem background_sets_current_color_witness :
    (parseU8 ['1', '0'] = some 10 ∧ parseU8 ['2', '0'] = some 20 ∧
     parseU8 ['3', '0'] = some 30 ∧ ('X' : Char) ≠ escChar) ∧
    parse_ansi_rgb (mkCode48 ['1', '0'] ['2', '0'] ['3', '0']) = some ⟨10, 20, 30, 255⟩ ∧
    runParse .normal defaultColor
        (escChar :: '[' :: (mkCode48 ['1', '0'] ['2', '0'] ['3', '0'] ++ 'm' :: 'X' :: [])) =
      ('X', ⟨10, 20, 30, 255⟩) :: runParse .normal ⟨10, 20, 30, 255⟩ [] := by
  have h := background_sets_current_color defaultColor 10 20 30 ['1', '0'] ['2', '0'] ['3', '0']
    'X' [] (by decide) (by decide) (by decide) (by decide)
  exact ⟨⟨by decide, by decide, by decide, by decide⟩, h.1, h.2⟩

/-! ### C10: count_visible_chars versus parse_colored_line -/

theorem runCount_eq_length :
    ∀ (l : List Char) (m : PMode) (cur : Rgba),
      runCount (projMode m) l = (runParse m cur l).length := by
  intro l
  induction l with
  | nil => intro m cur; cases m <;> rfl
  | cons c rest ih =>
    intro m cur
    cases m with
    | normal =>
      by_cases hc : c = escChar
      · rw [show runCount (projMode PMode.normal) (c :: rest) = runCount .sawEsc rest by
            simp [runCount, projMode, hc],
          show runParse PMode.normal cur (c :: rest) = runParse .sawEsc cur rest by
            simp [runParse, hc]]
        exact ih .sawEsc cur
      · rw [show runCount (projMode PMode.normal) (c :: rest) = 1 + runCount .normal rest by
            simp [runCount, projMode, hc],
          show runParse PMode.normal cur (c :: rest) = (c, cur) :: runParse .normal cur rest by
            simp [runParse, hc]]
        have h := ih .normal cur
        simp only [projMode] at h
        simp only [List.length_cons]
        omega
    | sawEsc =>
      by_cases hc : c = '['
      · rw [show runCount (projMode PMode.sawEsc) (c :: rest) = runCount .inEsc rest by
            simp [runCount, projMode, hc],
          show runParse PMode.sawEsc cur (c :: rest) = runParse (.inEscape []) cur rest by
            simp [runParse, hc]]
        exact ih (.inEscape []) cur
      · rw [show runCount (projMode PMode.sawEsc) (c :: rest) = runCount .normal rest by
            simp [runCount, projMode, hc],
          show runParse PMode.sawEsc cur (c :: rest) = runParse .normal cur rest by
            simp [runParse, hc]]
        exact ih .normal cur
    | inEscape buf =>
      by_cases hc : c = 'm'
      · rw [show runCount (projMode (PMode.inEscape buf)) (c :: rest) = runCount .normal rest by
            simp [runCount, projMode, hc],
          show runParse (PMode.inEscape buf) cur (c :: rest) =
              runParse .normal (applyCode cur buf) rest by
            simp [runParse, hc]]
        exact ih .normal (applyCode cur buf)
      · rw [show runCount (projMode (PMode.inEscape buf)) (c :: rest) = runCount .inEsc rest by
            simp [runCount, projMode, hc],
          show runParse (PMode.inEscape buf) cur (c :: rest) =
              runParse (.inEscape (buf ++ [c])) cur rest by
            simp [runParse, hc]]
        exact ih (.inEscape (buf ++ [c])) cur

theorem mem_le_maxVisible (ls : List (List Char)) (l : List Char) (h : l ∈ ls) :
    count_visible_chars l ≤ maxVisible ls := by
  induction ls with
  | nil => cases h
  | cons x xs ih =>
    have hstep : maxVisible (x :: xs) = max (count_visible_chars x) (maxVisible xs) := rfl
    rcases List.mem_cons.mp h with rfl | h'
    · rw [hstep]; exact le_max_left _ _
    · rw [hstep]; exact le_trans (ih h') (le_max_right _ _)

/--
C10: for every line, count_visible_chars equals the number of cells
produced by parse_colored_line (both walk the same escape-skipping
machine); consequently in render_to_image the buffer width — the maximum
visible count over all lines times char_width — strictly bounds every
drawn cell's x pixel origin: no glyph origin lies at or beyond the right
edge.
-/
theorem count_matches_parse (l0 : List Char) (ls : List (List Char)) (l : List Char)
    (i : Nat) (hmem : l ∈ ls) (hi : i < (parse_colored_line l).length) :
    count_visible_chars l0 = (parse_colored_line l0).length ∧
    i * char_width < bufferWidthPx ls := by
  constructor
  · exact runCount_eq_length l0 .normal defaultColor
  · have h1 : count_visible_chars l = (parse_colored_line l).length :=
      runCount_eq_length l .normal defaultColor
    have h2 : count_visible_chars l ≤ maxVisible ls := mem_le_maxVisible ls l hmem
    have h3 : i < maxVisible ls := by omega
    simp only [bufferWidthPx, char_width]
    omega

/-- Witness for count_matches_parse on a two-line text with an escape. -/
theorem count_matches_parse_witness :
    (['C'] ∈ [['A', 'B'], ['C']] ∧ 0 < (parse_colored_line ['C']).length) ∧
    count_visible_chars [escChar, '[', '9', 'm', 'Z'] =
      (parse_colored_line [escChar, '[', '9', 'm', 'Z']).length ∧
    0 * char_width < bufferWidthPx [['A', 'B'], ['C']] := by
  have h := count_matches_parse [escChar, '[', '9', 'm', 'Z'] [['A', 'B'], ['C']] ['C'] 0
    (by decide) (by decide)
  exact ⟨⟨by decide, by decide⟩, h.1, h.2⟩

/-! ### Hex digit helper lemmas -/

theorem hexVal?_le (b v : Nat) (h : hexVal? b = some v) : v ≤ 255 := by
  unfold hexVal? at h
  split_ifs at h with h1 h2 h3 <;> simp_all <;> omega

theorem hexVal?_ne_special (b v : Nat) (h : hexVal? b = some v) :
    b ≠ 35 ∧ b ≠ 43 ∧ b ≠ 120 := by
  have h35 : hexVal? 35 = none := by decide
  have h43 : hexVal? 43 = none := by decide
  have h120 : hexVal? 120 = none := by decide
  refine ⟨?_, ?_, ?_⟩ <;> rintro rfl
  · rw [h35] at h; cases h
  · rw [h43] at h; cases h
  · rw [h120] at h; cases h

theorem fromStr16_single (x v : Nat) (h : hexVal? x = some v) :
    fromStrRadix16U8 [x] = some v := by
  have hne : x ≠ 43 := (hexVal?_ne_special x v h).2.1
  have hle : v ≤ 255 := hexVal?_le x v h
  have hsp : stripPlusB [x] = [x] := by simp [stripPlusB, hne]
  unfold fromStrRadix16U8
  rw [hsp]
  simp [hexDigitsAux, h, hle]

theorem stripHexMark_cons2 (a b : Nat) (r : List Nat)
    (h35 : a ≠ 35) (h0x : ¬(a = 48 ∧ b = 120)) :
    stripHexMark (a :: b :: r) = a :: b :: r := by
  simp [stripHexMark, h35, h0x]

/--
C7: nibble replication. For every 3-digit hex string (each digit valid
after lowercasing) parse_hex_color returns the color with each digit d
expanded to d * 17 and alpha 255; for every 4-digit string the alpha
digit is expanded via d * 17 too; and concretely
parse_hex_color("F0A") = parse_hex_color("FF00AA") (byte lists of the
two strings).
-/
theorem nibble_replication (b0 b1 b2 b3 v0 v1 v2 v3 : Nat)
    (h0 : hexVal? (toLowerByte b0) = some v0) (h1 : hexVal? (toLowerByte b1) = some v1)
    (h2 : hexVal? (toLowerByte b2) = some v2) (h3 : hexVal? (toLowerByte b3) = some v3) :
    parse_hex_color [b0, b1, b2] = .ok ⟨v0 * 17, v1 * 17, v2 * 17, 255⟩ ∧
    parse_hex_color [b0, b1, b2, b3] = .ok ⟨v0 * 17, v1 * 17, v2 * 17, v3 * 17⟩ ∧
    parse_hex_color [70, 48, 65] = parse_hex_color [70, 70, 48, 48, 65, 65] := by
  have e35 : toLowerByte b0 ≠ 35 := (hexVal?_ne_special _ _ h0).1
  have e0x : ¬(toLowerByte b0 = 48 ∧ toLowerByte b1 = 120) := by
    rintro ⟨_, hx⟩
    exact (hexVal?_ne_special _ _ h1).2.2 hx
  refine ⟨?_, ?_, by rfl⟩
  · show parseHexDispatch (stripHexMark ([b0, b1, b2].map toLowerByte)) = _
    rw [show [b0, b1, b2].map toLowerByte =
        [toLowerByte b0, toLowerByte b1, toLowerByte b2] from rfl]
    rw [stripHexMark_cons2 _ _ _ e35 e0x]
    simp [parseHexDispatch, fromStr16_single _ _ h0, fromStr16_single _ _ h1,
      fromStr16_single _ _ h2]
  · show parseHexDispatch (stripHexMark ([b0, b1, b2, b3].map toLowerByte)) = _
    rw [show [b0, b1, b2, b3].map toLowerByte =
        [toLowerByte b0, toLowerByte b1, toLowerByte b2, toLowerByte b3] from rfl]
    rw [stripHexMark_cons2 _ _ _ e35 e0x]
    simp [parseHexDispatch, fromStr16_single _ _ h0, fromStr16_single _ _ h1,
      fromStr16_single _ _ h2, fromStr16_single _ _ h3]

/-- Witness for nibble_replication at digits F, 0, A, 5. -/
theorem nibble_replication_witness :
    (hexVal? (toLowerByte 70) = some 15 ∧ hexVal? (toLowerByte 48) = some 0 ∧
     hexVal? (toLowerByte 65) = some 10 ∧ hexVal? (toLowerByte 53) = some 5) ∧
    parse_hex_color [70, 48, 65] = .ok ⟨255, 0, 170, 255⟩ ∧
    parse_hex_color [70, 48, 65, 53] = .ok ⟨255, 0, 170, 85⟩ := by
  have h := nibble_replication 70 48 65 53 15 0 10 5
    (by decide) (by decide) (by decide) (by decide)
  exact ⟨⟨by decide, by decide, by decide, by decide⟩, h.1, h.2.1⟩

/-! ### C3 support: success of a slice forces hex-or-plus bytes -/

theorem hexDigitsAux_mem :
    ∀ (t : List Nat) (a v : Nat), hexDigitsAux a t = some v →
      ∀ x ∈ t, (hexVal? x).isSome := by
  intro t
  induction t with
  | nil => intro a v _ x hx; cases hx
  | cons b r ih =>
    intro a v h x hx
    rcases hb : hexVal? b with _ | d
    · simp only [hexDigitsAux, hb] at h
      exact Option.noConfusion h
    · simp only [hexDigitsAux, hb] at h
      rcases List.mem_cons.mp hx with rfl | hx'
      · simp [hb]
      · exact ih _ _ h x hx'

theorem mem_stripPlusB (s : List Nat) (x : Nat) (hx : x ∈ s) :
    x = 43 ∨ x ∈ stripPlusB s := by
  cases s with
  | nil => cases hx
  | cons b r =>
    by_cases hb : b = 43
    · subst hb
      rcases List.mem_cons.mp hx with rfl | hx'
      · exact Or.inl rfl
      · right; simpa [stripPlusB] using hx'
    · right; simpa [stripPlusB, hb] using hx

theorem fromStr16_digits (s : List Nat) (v : Nat) (h : fromStrRadix16U8 s = some v) :
    ∀ x ∈ stripPlusB s, (hexVal? x).isSome := by
  unfold fromStrRadix16U8 at h
  split at h
  · intro x hx
    next heq => rw [heq] at hx; cases hx
  · next b r heq =>
    intro x hx
    rw [heq] at hx
    split at h
    · next w hd => exact hexDigitsAux_mem _ _ _ hd x hx
    · exact Option.noConfusion h

theorem fromStr16_mem (s : List Nat) (v : Nat) (h : fromStrRadix16U8 s = some v) :
    ∀ x ∈ s, x = 43 ∨ (hexVal? x).isSome := by
  intro x hx
  rcases mem_stripPlusB s x hx with h1 | h1
  · exact Or.inl h1
  · exact Or.inr (fromStr16_digits s v h x h1)

theorem mem_take_or_drop (l : List Nat) (k x : Nat) (hx : x ∈ l) :
    x ∈ l.take k ∨ x ∈ l.drop k := by
  rw [← List.take_append_drop k l] at hx
  exact List.mem_append.mp hx

/-- Every byte of a length-3 string is in one of the three 1-byte slices. -/
theorem mem_slices3 (l : List Nat) (hl : l.length = 3) (x : Nat) (hx : x ∈ l) :
    x ∈ l.take 1 ∨ x ∈ (l.drop 1).take 1 ∨ x ∈ (l.drop 2).take 1 := by
  rcases mem_take_or_drop l 1 x hx with h | h
  · exact Or.inl h
  rcases mem_take_or_drop _ 1 x h with h' | h'
  · exact Or.inr (Or.inl h')
  rw [List.drop_drop] at h'
  rcases mem_take_or_drop _ 1 x h' with h2 | h2
  · exact Or.inr (Or.inr h2)
  rw [List.drop_drop] at h2
  rw [List.drop_eq_nil_of_le (by omega)] at h2
  cases h2

/-- Every byte of a length-4 string is in one of the four 1-byte slices. -/
theorem mem_slices4 (l : List Nat) (hl : l.length = 4) (x : Nat) (hx : x ∈ l) :
    x ∈ l.take 1 ∨ x ∈ (l.drop 1).take 1 ∨ x ∈ (l.drop 2).take 1 ∨
      x ∈ (l.drop 3).take 1 := by
  rcases mem_take_or_drop l 1 x hx with h | h
  · exact Or.inl h
  rcases mem_take_or_drop _ 1 x h with h' | h'
  · exact Or.inr (Or.inl h')
  rw [List.drop_drop] at h'
  rcases mem_take_or_drop _ 1 x h' with h2 | h2
  · exact Or.inr (Or.inr (Or.inl h2))
  rw [List.drop_drop] at h2
  rcases mem_take_or_drop _ 1 x h2 with h3 | h3
  · exact Or.inr (Or.inr (Or.inr h3))
  rw [List.drop_drop] at h3
  rw [List.drop_eq_nil_of_le (by omega)] at h3
  cases h3

/-- Every byte of a length-6 string is in one of the three 2-byte slices. -/
theorem mem_slices6 (l : List Nat) (hl : l.length = 6) (x : Nat) (hx : x ∈ l) :
    x ∈ l.take 2 ∨ x ∈ (l.drop 2).take 2 ∨ x ∈ (l.drop 4).take 2 := by
  rcases mem_take_or_drop l 2 x hx with h | h
  · exact Or.inl h
  rcases mem_take_or_drop _ 2 x h with h' | h'
  · exact Or.inr (Or.inl h')
  rw [List.drop_drop] at h'
  rcases mem_take_or_drop _ 2 x h' with h2 | h2
  · exact Or.inr (Or.inr h2)
  rw [List.drop_drop] at h2
  rw [List.drop_eq_nil_of_le (by omega)] at h2
  cases h2

/-- Every byte of a length-8 string is in one of the four 2-byte slices. -/
theorem mem_slices8 (l : List Nat) (hl : l.length = 8) (x : Nat) (hx : x ∈ l) :
    x ∈ l.take 2 ∨ x ∈ (l.drop 2).take 2 ∨ x ∈ (l.drop 4).take 2 ∨
      x ∈ (l.drop 6).take 2 := by
  rcases mem_take_or_drop l 2 x hx with h | h
  · exact Or.inl h
  rcases mem_take_or_drop _ 2 x h with h' | h'
  · exact Or.inr (Or.inl h')
  rw [List.drop_drop] at h'
  rcases mem_take_or_drop _ 2 x h' with h2 | h2
  · exact Or.inr (Or.inr (Or.inl h2))
  rw [List.drop_drop] at h2
  rcases mem_take_or_drop _ 2 x h2 with h3 | h3
  · exact Or.inr (Or.inr (Or.inr h3))
  rw [List.drop_drop] at h3
  rw [List.drop_eq_nil_of_le (by omega)] at h3
  cases h3

/-- Length-3 arm: the dispatch either errors with invalidColor or every
byte of the string is a plus sign or a hex digit. -/
theorem dispatch3 (hex : List Nat) (h3 : hex.length = 3) :
    parseHexDispatch hex = .error (.invalidColor hex) ∨
    ∀ x ∈ hex, x = 43 ∨ (hexVal? x).isSome := by
  unfold parseHexDispatch
  rw [if_pos h3]
  rcases hA : fromStrRadix16U8 (hex.take 1) with _ | r
  · left; simp [hA]
  rcases hB : fromStrRadix16U8 ((hex.drop 1).take 1) with _ | g
  · left; simp [hA, hB]
  rcases hC : fromStrRadix16U8 ((hex.drop 2).take 1) with _ | b
  · left; simp [hA, hB, hC]
  right
  intro x hx
  rcases mem_slices3 hex h3 x hx with h | h | h
  · exact fromStr16_mem _ _ hA x h
  · exact fromStr16_mem _ _ hB x h
  · exact fromStr16_mem _ _ hC x h

/-- Length-4 arm, as dispatch3. -/
theorem dispatch4 (hex : List Nat) (h4 : hex.length = 4) :
    parseHexDispatch hex = .error (.invalidColor hex) ∨
    ∀ x ∈ hex, x = 43 ∨ (hexVal? x).isSome := by
  unfold parseHexDispatch
  rw [if_neg (by omega), if_pos h4]
  rcases hA : fromStrRadix16U8 (hex.take 1) with _ | r
  · left; simp [hA]
  rcases hB : fromStrRadix16U8 ((hex.drop 1).take 1) with _ | g
  · left; simp [hA, hB]
  rcases hC : fromStrRadix16U8 ((hex.drop 2).take 1) with _ | b
  · left; simp [hA, hB, hC]
  rcases hD : fromStrRadix16U8 ((hex.drop 3).take 1) with _ | a
  · left; simp [hA, hB, hC, hD]
  right
  intro x hx
  rcases mem_slices4 hex h4 x hx with h | h | h | h
  · exact fromStr16_mem _ _ hA x h
  · exact fromStr16_mem _ _ hB x h
  · exact fromStr16_mem _ _ hC x h
  · exact fromStr16_mem _ _ hD x h

/-- Length-6 arm, as dispatch3. -/
theorem dispatch6 (hex : List Nat) (h6 : hex.length = 6) :
    parseHexDispatch hex = .error (.invalidColor hex) ∨
    ∀ x ∈ hex, x = 43 ∨ (hexVal? x).isSome := by
  unfold parseHexDispatch
  rw [if_neg (by omega), if_neg (by omega), if_pos h6]
  rcases hA : fromStrRadix16U8 (hex.take 2) with _ | r
  · left; simp [hA]
  rcases hB : fromStrRadix16U8 ((hex.drop 2).take 2) with _ | g
  · left; simp [hA, hB]
  rcases hC : fromStrRadix16U8 ((hex.drop 4).take 2) with _ | b
  · left; simp [hA, hB, hC]
  right
  intro x hx
  rcases mem_slices6 hex h6 x hx with h | h | h
  · exact fromStr16_mem _ _ hA x h
  · exact fromStr16_mem _ _ hB x h
  · exact fromStr16_mem _ _ hC x h

/-- Length-8 arm, as dispatch3. -/
theorem dispatch8 (hex : List Nat) (h8 : hex.length = 8) :
    parseHexDispatch hex = .error (.invalidColor hex) ∨
    ∀ x ∈ hex, x = 43 ∨ (hexVal? x).isSome := by
  unfold parseHexDispatch
  rw [if_neg (by omega), if_neg (by omega), if_neg (by omega), if_pos h8]
  rcases hA : fromStrRadix16U8 (hex.take 2) with _ | r
  · left; simp [hA]
  rcases hB : fromStrRadix16U8 ((hex.drop 2).take 2) with _ | g
  · left; simp [hA, hB]
  rcases hC : fromStrRadix16U8 ((hex.drop 4).take 2) with _ | b
  · left; simp [hA, hB, hC]
  rcases hD : fromStrRadix16U8 ((hex.drop 6).take 2) with _ | a
  · left; simp [hA, hB, hC, hD]
  right
  intro x hx
  rcases mem_slices8 hex h8 x hx with h | h | h | h
  · exact fromStr16_mem _ _ hA x h
  · exact fromStr16_mem _ _ hB x h
  · exact fromStr16_mem _ _ hC x h
  · exact fromStr16_mem _ _ hD x h

/--
C3 counterexample. The claim requires failure whenever the normalized,
stripped string contains a non-hex character; the bytes of "+300ff"
contain '+' (43), which is not a hex digit, yet the call succeeds with
Ok((3,0,255,255)) because u8::from_str_radix accepts a leading plus
sign inside the two-byte slice "+3".
-/
theorem invalid_hex_counterexample :
    parse_hex_color [43, 51, 48, 48, 102, 102] = .ok ⟨3, 0, 255, 255⟩ ∧
    hexVal? 43 = none ∧
    43 ∈ stripHexMark (([43, 51, 48, 48, 102, 102] : List Nat).map toLowerByte) := by
  refine ⟨rfl, by decide, by decide⟩

/--
C3 (amended): for every ASCII input, after lowercasing and prefix
stripping, a length outside {3,4,6,8} fails with the invalid-length
error carrying the normalized string, and a valid-length string
containing any character that is neither a hex digit nor '+' fails with
the invalid-color error carrying the normalized string; a '+' sitting
at the start of one of the parsed groups is accepted as a sign by
u8::from_str_radix, so inputs such as "+300ff" succeed.
-/
theorem invalid_hex_rejected (s : List Nat) (hascii : ∀ x ∈ s, x < 128) :
    (¬((stripHexMark (s.map toLowerByte)).length = 3 ∨
       (stripHexMark (s.map toLowerByte)).length = 4 ∨
       (stripHexMark (s.map toLowerByte)).length = 6 ∨
       (stripHexMark (s.map toLowerByte)).length = 8) →
      parse_hex_color s = .error (.invalidLength (stripHexMark (s.map toLowerByte)))) ∧
    (((stripHexMark (s.map toLowerByte)).length = 3 ∨
      (stripHexMark (s.map toLowerByte)).length = 4 ∨
      (stripHexMark (s.map toLowerByte)).length = 6 ∨
      (stripHexMark (s.map toLowerByte)).length = 8) →
     (∃ x ∈ stripHexMark (s.map toLowerByte), hexVal? x = none ∧ x ≠ 43) →
      parse_hex_color s = .error (.invalidColor (stripHexMark (s.map toLowerByte)))) := by
  constructor
  · intro hlen
    push_neg at hlen
    obtain ⟨n3, n4, n6, n8⟩ := hlen
    show parseHexDispatch _ = _
    unfold parseHexDispatch
    rw [if_neg n3, if_neg n4, if_neg n6, if_neg n8]
  · intro hlen hbad
    obtain ⟨x, hx, hnone, hne43⟩ := hbad
    have contra : ¬(∀ y ∈ stripHexMark (s.map toLowerByte),
        y = 43 ∨ (hexVal? y).isSome) := by
      intro hall
      rcases hall x hx with rfl | hs
      · exact hne43 rfl
      · rw [hnone] at hs; cases hs
    show parseHexDispatch _ = _
    rcases hlen with h | h | h | h
    · rcases dispatch3 _ h with hres | hall
      · exact hres
      · exact absurd hall contra
    · rcases dispatch4 _ h with hres | hall
      · exact hres
      · exact absurd hall contra
    · rcases dispatch6 _ h with hres | hall
      · exact hres
      · exact absurd hall contra
    · rcases dispatch8 _ h with hres | hall
      · exact hres
      · exact absurd hall contra

/-- Witness for invalid_hex_rejected at the bytes of "zzz". -/
theorem invalid_hex_rejected_witness :
    (∀ x ∈ ([122, 122, 122] : List Nat), x < 128) ∧
    parse_hex_color [122, 122, 122] = .error (.invalidColor [122, 122, 122]) := by
  have h := invalid_hex_rejected [122, 122, 122] (by decide)
  refine ⟨by decide, ?_⟩
  exact h.2 (Or.inl (by decide)) ⟨122, by decide, by decide, by decide⟩

end AsciiBot
